import Mathlib

/-!
Verification of the maze-3d-game core (`src/game.py`) against its
specification.

Shallow embedding conventions:
* Python ints are `ℤ`, Python floats are `ℝ` (exact real semantics).
* The occupancy grid (a list of lists of 0/1 in the source) is represented
  by its cell lookup function `maze : ℤ → ℤ → ℕ`; `maze x y` stands for the
  source expression `maze[y][x]`.  Mutation `maze[y][x] = 0` becomes the
  pointwise update `upd maze x y`.
* Python `int(x)` truncates toward zero: `pyInt` (on `ℝ`) / `pyIntQ` (on `ℚ`).
* Python `//` (floor division) agrees with Lean `Int` division `/` on the
  non-negative operands that occur here; both are used with divisor 2 only.
* `while` loops become fuel-based structural recursions.  `random.randint`
  draws are modeled by an arbitrary choice sequence `choices : ℕ → ℕ`,
  reduced modulo the frontier length, which ranges over exactly the indices
  the source can draw.
* Executable rational mirrors (`pyIntQ`, `cast_ray_loopQ`) accompany the
  real-valued definitions so that concrete runs can be evaluated.
-/

/-! ### Constants from `src/game.py` lines 33-58 -/

/-- `MAX_DEPTH = 20` (game.py line 35). -/
def MAX_DEPTH : ℕ := 20

/-- `RAY_STEP_SIZE = 0.02` (game.py line 39). -/
def RAY_STEP_SIZE : ℚ := 1 / 50

/-- `ROTATION_SPEED = 0.04` (game.py line 36). -/
def ROTATION_SPEED : ℚ := 1 / 25

/-! ### Python `int()` truncation toward zero -/

/-- Python `int(x)` for a float `x`: truncation toward zero
(`int(-0.5) == 0`, `int(1.9) == 1`). -/
noncomputable def pyInt (x : ℝ) : ℤ := if 0 ≤ x then ⌊x⌋ else -⌊-x⌋

/-- Executable mirror of `pyInt` on the rationals. -/
def pyIntQ (x : ℚ) : ℤ := if 0 ≤ x then ⌊x⌋ else -⌊-x⌋

lemma pyInt_ratCast (q : ℚ) : pyInt (q : ℝ) = pyIntQ q := by
  unfold pyInt pyIntQ
  by_cases h : (0 : ℚ) ≤ q
  · rw [if_pos h, if_pos (by exact_mod_cast h)]
    exact_mod_cast Rat.floor_cast (α := ℝ) q
  · rw [if_neg h, if_neg (by exact_mod_cast h)]
    rw [show (-(q : ℝ)) = ((-q : ℚ) : ℝ) by push_cast; ring]
    rw [Rat.floor_cast (α := ℝ) (-q)]

/-! ### Renderer shading (game.py lines 204-223) -/

/-- `color_intensity = min(255, max(50, 255 - distance * 20))`
(game.py line 204). -/
noncomputable def color_intensity (distance : ℝ) : ℝ :=
  min 255 (max 50 (255 - distance * 20))

/-- C9.  For every raw ray distance the wall colour intensity is a
non-increasing (linearly fading, clamped) function of distance: for
`d1 ≤ d2` the intensity at `d2` is at most the intensity at `d1`, and every
intensity lies between the positive brightness floor 50 and the maximum
channel value 255. -/
theorem color_intensity_fades (d1 d2 : ℝ) (h : d1 ≤ d2) :
    color_intensity d2 ≤ color_intensity d1 ∧
    50 ≤ color_intensity d2 ∧ color_intensity d2 ≤ 255 ∧
    50 ≤ color_intensity d1 ∧ color_intensity d1 ≤ 255 := by
  unfold color_intensity
  refine ⟨?_, ?_, ?_, ?_, ?_⟩
  · exact min_le_min le_rfl (max_le_max le_rfl (by linarith))
  · exact le_min (by norm_num) (le_max_left _ _)
  · exact min_le_left _ _
  · exact le_min (by norm_num) (le_max_left _ _)
  · exact min_le_left _ _

/-- Witness for `color_intensity_fades` at the concrete distances 1 and 2. -/
theorem color_intensity_fades_witness :
    (1 : ℝ) ≤ 2 ∧
    (color_intensity 2 ≤ color_intensity 1 ∧
     50 ≤ color_intensity 2 ∧ color_intensity 2 ≤ 255 ∧
     50 ≤ color_intensity 1 ∧ color_intensity 1 ≤ 255) :=
  ⟨by norm_num, color_intensity_fades 1 2 (by norm_num)⟩

/-! ### Raycasting (game.py lines 145-173)

`cast_ray` marches from the player position in fixed steps
`(ray_cos, ray_sin) = (cos(angle)*RAY_STEP_SIZE, sin(angle)*RAY_STEP_SIZE)`,
recomputing the Euclidean distance traveled each step, until a wall cell is
entered, the distance reaches `MAX_DEPTH`, or the truncated cell index
leaves the grid bounds.  The `while` loop is embedded with explicit fuel;
`RayExit` records which of the source's exit conditions fired
(`fuelOut` marks fuel exhaustion, which `cast_ray_terminates` rules out for
the fuel budget used by `cast_ray`). -/

inductive RayExit where
  | hitWall
  | outOfBounds
  | depthLimit
  | fuelOut
deriving DecidableEq, Repr

open Classical in
/-- The ray-march loop of `cast_ray` (game.py lines 155-168).  State is
`(ray_x, ray_y, wall_distance)`; each iteration first checks
`wall_distance < MAX_DEPTH`, then advances by `(rayCos, raySin)`, recomputes
`wall_distance = sqrt((ray_x-px)^2 + (ray_y-py)^2)`, and tests the cell
`maze[int(ray_y)][int(ray_x)]` after a bounds check, breaking out of bounds
otherwise. -/
noncomputable def cast_ray_loop (size : ℤ) (maze : ℤ → ℤ → ℕ)
    (px py rayCos raySin : ℝ) :
    ℕ → ℝ → ℝ → ℝ → ℝ × RayExit
  | 0, _, _, d => (d, RayExit.fuelOut)
  | fuel + 1, rx, ry, d =>
    if d < (MAX_DEPTH : ℝ) then
      let rx' := rx + rayCos
      let ry' := ry + raySin
      let d' := Real.sqrt ((rx' - px) ^ 2 + (ry' - py) ^ 2)
      let mapX := pyInt rx'
      let mapY := pyInt ry'
      if 0 ≤ mapX ∧ mapX < size ∧ 0 ≤ mapY ∧ mapY < size then
        if maze mapX mapY = 1 then (d', RayExit.hitWall)
        else cast_ray_loop size maze px py rayCos raySin fuel rx' ry' d'
      else (d', RayExit.outOfBounds)
    else (d, RayExit.depthLimit)

/-- `cast_ray(angle)` (game.py lines 145-170), starting at the player
position with `wall_distance = 0`.  The fuel `MAX_DEPTH * 50 + 1 = 1001`
equals `⌈MAX_DEPTH / RAY_STEP_SIZE⌉ + 1`; `cast_ray_terminates` shows it is
never exhausted. -/
noncomputable def cast_ray (size : ℤ) (maze : ℤ → ℤ → ℕ)
    (px py angle : ℝ) : ℝ × RayExit :=
  cast_ray_loop size maze px py
    (Real.cos angle * (RAY_STEP_SIZE : ℝ)) (Real.sin angle * (RAY_STEP_SIZE : ℝ))
    (MAX_DEPTH * 50 + 1) px py 0

/-- Executable rational mirror of `cast_ray_loop`.  Instead of the square
root it advances the traveled distance by the constant step length `stepLen`
per iteration; `cast_ray_loop_eq_ratModel` proves this agrees with the real
loop whenever `rayCos^2 + raySin^2 = stepLen^2`, which holds for every
direction the source can produce. -/
def cast_ray_loopQ (size : ℤ) (maze : ℤ → ℤ → ℕ)
    (stepLen rayCos raySin : ℚ) :
    ℕ → ℚ → ℚ → ℚ → ℚ × RayExit
  | 0, _, _, d => (d, RayExit.fuelOut)
  | fuel + 1, rx, ry, d =>
    if d < (MAX_DEPTH : ℚ) then
      let rx' := rx + rayCos
      let ry' := ry + raySin
      let d' := d + stepLen
      let mapX := pyIntQ rx'
      let mapY := pyIntQ ry'
      if 0 ≤ mapX ∧ mapX < size ∧ 0 ≤ mapY ∧ mapY < size then
        if maze mapX mapY = 1 then (d', RayExit.hitWall)
        else cast_ray_loopQ size maze stepLen rayCos raySin fuel rx' ry' d'
      else (d', RayExit.outOfBounds)
    else (d, RayExit.depthLimit)

/-- Distance evaluation for a unit direction: after traveling `a ≥ 0` along
`(c, s)` with `c^2 + s^2 = 1`, the Euclidean distance from the start is
exactly `a`. -/
lemma sqrt_unit_dir (c s a : ℝ) (hu : c ^ 2 + s ^ 2 = 1) (ha : 0 ≤ a) :
    Real.sqrt ((a * c) ^ 2 + (a * s) ^ 2) = a := by
  have h : (a * c) ^ 2 + (a * s) ^ 2 = a ^ 2 := by
    have : (a * c) ^ 2 + (a * s) ^ 2 = a ^ 2 * (c ^ 2 + s ^ 2) := by ring
    rw [this, hu, mul_one]
  rw [h, Real.sqrt_sq ha]

/-- Step-count arithmetic: `k` steps of length `RAY_STEP_SIZE` keep the
distance below `MAX_DEPTH` exactly when `k < 1000`; one more step then stays
at most `MAX_DEPTH`. -/
lemma step_succ_le (k : ℕ) (h : (k : ℝ) * (RAY_STEP_SIZE : ℝ) < (MAX_DEPTH : ℝ)) :
    ((k + 1 : ℕ) : ℝ) * (RAY_STEP_SIZE : ℝ) ≤ (MAX_DEPTH : ℝ) := by
  have hS : ((RAY_STEP_SIZE : ℚ) : ℝ) = 1 / 50 := by
    norm_num [RAY_STEP_SIZE]
  have hM : ((MAX_DEPTH : ℕ) : ℝ) = 20 := by norm_num [MAX_DEPTH]
  rw [hS, hM] at h
  rw [hS, hM]
  have hk : (k : ℝ) < 1000 := by linarith
  have hk' : k < 1000 := by exact_mod_cast hk
  have h2 : ((k + 1 : ℕ) : ℝ) ≤ 1000 := by exact_mod_cast hk'
  linarith

/-- Bounds invariant for the ray-march loop: starting from the state after
`k` steps along a unit direction, the returned distance lies in
`[0, MAX_DEPTH]`. -/
lemma cast_ray_loop_bounds (size : ℤ) (maze : ℤ → ℤ → ℕ) (px py c s : ℝ)
    (hu : c ^ 2 + s ^ 2 = 1) :
    ∀ (fuel k : ℕ), (k : ℝ) * (RAY_STEP_SIZE : ℝ) ≤ (MAX_DEPTH : ℝ) →
      0 ≤ (cast_ray_loop size maze px py (c * (RAY_STEP_SIZE : ℝ)) (s * (RAY_STEP_SIZE : ℝ)) fuel
            (px + (k : ℝ) * (c * (RAY_STEP_SIZE : ℝ))) (py + (k : ℝ) * (s * (RAY_STEP_SIZE : ℝ)))
            ((k : ℝ) * (RAY_STEP_SIZE : ℝ))).1 ∧
      (cast_ray_loop size maze px py (c * (RAY_STEP_SIZE : ℝ)) (s * (RAY_STEP_SIZE : ℝ)) fuel
            (px + (k : ℝ) * (c * (RAY_STEP_SIZE : ℝ))) (py + (k : ℝ) * (s * (RAY_STEP_SIZE : ℝ)))
            ((k : ℝ) * (RAY_STEP_SIZE : ℝ))).1 ≤ (MAX_DEPTH : ℝ) := by
  have hS0 : (0 : ℝ) ≤ (RAY_STEP_SIZE : ℝ) := by norm_num [RAY_STEP_SIZE]
  intro fuel
  induction fuel with
  | zero =>
    intro k hk
    simp only [cast_ray_loop]
    exact ⟨by positivity, hk⟩
  | succ n ih =>
    intro k hk
    by_cases hd : ((k : ℝ) * (RAY_STEP_SIZE : ℝ)) < (MAX_DEPTH : ℝ)
    · have harg1 : px + (k : ℝ) * (c * (RAY_STEP_SIZE : ℝ)) + c * (RAY_STEP_SIZE : ℝ)
          = px + ((k + 1 : ℕ) : ℝ) * (c * (RAY_STEP_SIZE : ℝ)) := by push_cast; ring
      have harg2 : py + (k : ℝ) * (s * (RAY_STEP_SIZE : ℝ)) + s * (RAY_STEP_SIZE : ℝ)
          = py + ((k + 1 : ℕ) : ℝ) * (s * (RAY_STEP_SIZE : ℝ)) := by push_cast; ring
      have hdist : Real.sqrt
            ((px + (k : ℝ) * (c * (RAY_STEP_SIZE : ℝ)) + c * (RAY_STEP_SIZE : ℝ) - px) ^ 2 +
             (py + (k : ℝ) * (s * (RAY_STEP_SIZE : ℝ)) + s * (RAY_STEP_SIZE : ℝ) - py) ^ 2)
          = ((k + 1 : ℕ) : ℝ) * (RAY_STEP_SIZE : ℝ) := by
        have e1 : px + (k : ℝ) * (c * (RAY_STEP_SIZE : ℝ)) + c * (RAY_STEP_SIZE : ℝ) - px
            = (((k + 1 : ℕ) : ℝ) * (RAY_STEP_SIZE : ℝ)) * c := by push_cast; ring
        have e2 : py + (k : ℝ) * (s * (RAY_STEP_SIZE : ℝ)) + s * (RAY_STEP_SIZE : ℝ) - py
            = (((k + 1 : ℕ) : ℝ) * (RAY_STEP_SIZE : ℝ)) * s := by push_cast; ring
        rw [e1, e2]
        exact sqrt_unit_dir c s _ hu (by positivity)
      have hnext : ((k + 1 : ℕ) : ℝ) * (RAY_STEP_SIZE : ℝ) ≤ (MAX_DEPTH : ℝ) :=
        step_succ_le k hd
      simp only [cast_ray_loop, if_pos hd, hdist]
      split_ifs with hb hw
      · exact ⟨by positivity, hnext⟩
      · rw [harg1, harg2]
        exact ih (k + 1) hnext
      · exact ⟨by positivity, hnext⟩
    · simp only [cast_ray_loop, if_neg hd]
      exact ⟨by positivity, hk⟩

/-- C3.  For every grid, viewer position and ray angle, the distance
returned by `cast_ray` is at least 0 and at most `MAX_DEPTH`. -/
theorem cast_ray_distance_bounds (size : ℤ) (maze : ℤ → ℤ → ℕ)
    (px py angle : ℝ) :
    0 ≤ (cast_ray size maze px py angle).1 ∧
    (cast_ray size maze px py angle).1 ≤ (MAX_DEPTH : ℝ) := by
  have h := cast_ray_loop_bounds size maze px py (Real.cos angle) (Real.sin angle)
    (Real.cos_sq_add_sin_sq angle) (MAX_DEPTH * 50 + 1) 0 (by norm_num)
  simpa using h

/-- Fuel-sufficiency invariant: from the state after `k` steps, a fuel
budget of `1001 - k` suffices for the loop to reach one of the source's
real exit conditions. -/
lemma cast_ray_loop_no_fuelOut (size : ℤ) (maze : ℤ → ℤ → ℕ) (px py c s : ℝ)
    (hu : c ^ 2 + s ^ 2 = 1) :
    ∀ (fuel k : ℕ), (MAX_DEPTH : ℕ) * 50 + 1 ≤ fuel + k →
      (k : ℝ) * (RAY_STEP_SIZE : ℝ) ≤ (MAX_DEPTH : ℝ) →
      (cast_ray_loop size maze px py (c * (RAY_STEP_SIZE : ℝ)) (s * (RAY_STEP_SIZE : ℝ)) fuel
        (px + (k : ℝ) * (c * (RAY_STEP_SIZE : ℝ))) (py + (k : ℝ) * (s * (RAY_STEP_SIZE : ℝ)))
        ((k : ℝ) * (RAY_STEP_SIZE : ℝ))).2 ≠ RayExit.fuelOut := by
  have hS0 : (0 : ℝ) ≤ (RAY_STEP_SIZE : ℝ) := by norm_num [RAY_STEP_SIZE]
  intro fuel
  induction fuel with
  | zero =>
    intro k hfuel hk
    exfalso
    have hS : ((RAY_STEP_SIZE : ℚ) : ℝ) = 1 / 50 := by norm_num [RAY_STEP_SIZE]
    have hM : ((MAX_DEPTH : ℕ) : ℝ) = 20 := by norm_num [MAX_DEPTH]
    rw [hS, hM] at hk
    have h1 : (1001 : ℕ) ≤ k := by simpa [MAX_DEPTH] using hfuel
    have h2 : (1001 : ℝ) ≤ (k : ℝ) := by exact_mod_cast h1
    linarith
  | succ n ih =>
    intro k hfuel hk
    by_cases hd : ((k : ℝ) * (RAY_STEP_SIZE : ℝ)) < (MAX_DEPTH : ℝ)
    · have harg1 : px + (k : ℝ) * (c * (RAY_STEP_SIZE : ℝ)) + c * (RAY_STEP_SIZE : ℝ)
          = px + ((k + 1 : ℕ) : ℝ) * (c * (RAY_STEP_SIZE : ℝ)) := by push_cast; ring
      have harg2 : py + (k : ℝ) * (s * (RAY_STEP_SIZE : ℝ)) + s * (RAY_STEP_SIZE : ℝ)
          = py + ((k + 1 : ℕ) : ℝ) * (s * (RAY_STEP_SIZE : ℝ)) := by push_cast; ring
      have hdist : Real.sqrt
            ((px + (k : ℝ) * (c * (RAY_STEP_SIZE : ℝ)) + c * (RAY_STEP_SIZE : ℝ) - px) ^ 2 +
             (py + (k : ℝ) * (s * (RAY_STEP_SIZE : ℝ)) + s * (RAY_STEP_SIZE : ℝ) - py) ^ 2)
          = ((k + 1 : ℕ) : ℝ) * (RAY_STEP_SIZE : ℝ) := by
        have e1 : px + (k : ℝ) * (c * (RAY_STEP_SIZE : ℝ)) + c * (RAY_STEP_SIZE : ℝ) - px
            = (((k + 1 : ℕ) : ℝ) * (RAY_STEP_SIZE : ℝ)) * c := by push_cast; ring
        have e2 : py + (k : ℝ) * (s * (RAY_STEP_SIZE : ℝ)) + s * (RAY_STEP_SIZE : ℝ) - py
            = (((k + 1 : ℕ) : ℝ) * (RAY_STEP_SIZE : ℝ)) * s := by push_cast; ring
        rw [e1, e2]
        exact sqrt_unit_dir c s _ hu (by positivity)
      simp only [cast_ray_loop, if_pos hd, hdist]
      split_ifs with hb hw
      · simp
      · rw [harg1, harg2]
        exact ih (k + 1) (by omega) (step_succ_le k hd)
      · simp
    · simp only [cast_ray_loop, if_neg hd]
      simp

/-- C10.  `cast_ray` terminates for every viewer position, grid and angle:
with the fuel budget `⌈MAX_DEPTH / RAY_STEP_SIZE⌉ + 1 = 1001` the march loop
always reaches one of its real exit conditions (wall hit, depth limit, or
leaving the grid bounds) — the fuel is never exhausted, because the traveled
distance grows by exactly `RAY_STEP_SIZE` per iteration. -/
theorem cast_ray_terminates (size : ℤ) (maze : ℤ → ℤ → ℕ)
    (px py angle : ℝ) :
    (cast_ray size maze px py angle).2 ≠ RayExit.fuelOut := by
  have h := cast_ray_loop_no_fuelOut size maze px py (Real.cos angle) (Real.sin angle)
    (Real.cos_sq_add_sin_sq angle) (MAX_DEPTH * 50 + 1) 0 (by omega) (by norm_num)
  simpa [cast_ray] using h

/-- Characterization of the out-of-bounds exit: when the march leaves the
grid bounds, the returned distance `d` lies in `[0, MAX_DEPTH]` and the ray
point at distance `d` along the direction has a truncated cell index outside
the grid. -/
lemma cast_ray_loop_oob (size : ℤ) (maze : ℤ → ℤ → ℕ) (px py c s : ℝ)
    (hu : c ^ 2 + s ^ 2 = 1) :
    ∀ (fuel k : ℕ), (k : ℝ) * (RAY_STEP_SIZE : ℝ) ≤ (MAX_DEPTH : ℝ) →
      ∀ dres : ℝ,
      cast_ray_loop size maze px py (c * (RAY_STEP_SIZE : ℝ)) (s * (RAY_STEP_SIZE : ℝ)) fuel
        (px + (k : ℝ) * (c * (RAY_STEP_SIZE : ℝ))) (py + (k : ℝ) * (s * (RAY_STEP_SIZE : ℝ)))
        ((k : ℝ) * (RAY_STEP_SIZE : ℝ)) = (dres, RayExit.outOfBounds) →
      0 ≤ dres ∧ dres ≤ (MAX_DEPTH : ℝ) ∧
      ¬ (0 ≤ pyInt (px + dres * c) ∧ pyInt (px + dres * c) < size ∧
         0 ≤ pyInt (py + dres * s) ∧ pyInt (py + dres * s) < size) := by
  have hS0 : (0 : ℝ) ≤ (RAY_STEP_SIZE : ℝ) := by norm_num [RAY_STEP_SIZE]
  intro fuel
  induction fuel with
  | zero =>
    intro k hk dres h
    exfalso
    simp only [cast_ray_loop, Prod.mk.injEq] at h
    exact absurd h.2 (by simp)
  | succ n ih =>
    intro k hk dres h
    by_cases hd : ((k : ℝ) * (RAY_STEP_SIZE : ℝ)) < (MAX_DEPTH : ℝ)
    · have harg1 : px + (k : ℝ) * (c * (RAY_STEP_SIZE : ℝ)) + c * (RAY_STEP_SIZE : ℝ)
          = px + ((k + 1 : ℕ) : ℝ) * (c * (RAY_STEP_SIZE : ℝ)) := by push_cast; ring
      have harg2 : py + (k : ℝ) * (s * (RAY_STEP_SIZE : ℝ)) + s * (RAY_STEP_SIZE : ℝ)
          = py + ((k + 1 : ℕ) : ℝ) * (s * (RAY_STEP_SIZE : ℝ)) := by push_cast; ring
      have hdist : Real.sqrt
            ((px + (k : ℝ) * (c * (RAY_STEP_SIZE : ℝ)) + c * (RAY_STEP_SIZE : ℝ) - px) ^ 2 +
             (py + (k : ℝ) * (s * (RAY_STEP_SIZE : ℝ)) + s * (RAY_STEP_SIZE : ℝ) - py) ^ 2)
          = ((k + 1 : ℕ) : ℝ) * (RAY_STEP_SIZE : ℝ) := by
        have e1 : px + (k : ℝ) * (c * (RAY_STEP_SIZE : ℝ)) + c * (RAY_STEP_SIZE : ℝ) - px
            = (((k + 1 : ℕ) : ℝ) * (RAY_STEP_SIZE : ℝ)) * c := by push_cast; ring
        have e2 : py + (k : ℝ) * (s * (RAY_STEP_SIZE : ℝ)) + s * (RAY_STEP_SIZE : ℝ) - py
            = (((k + 1 : ℕ) : ℝ) * (RAY_STEP_SIZE : ℝ)) * s := by push_cast; ring
        rw [e1, e2]
        exact sqrt_unit_dir c s _ hu (by positivity)
      simp only [cast_ray_loop, if_pos hd] at h
      rw [hdist, harg1, harg2] at h
      split_ifs at h with hb hw
      · simp at h
      · exact ih (k + 1) (step_succ_le k hd) dres h
      · have h1 : ((k + 1 : ℕ) : ℝ) * (RAY_STEP_SIZE : ℝ) = dres :=
          congrArg Prod.fst h
        have e1 : px + dres * c = px + ((k + 1 : ℕ) : ℝ) * (c * (RAY_STEP_SIZE : ℝ)) := by
          rw [← h1]; ring
        have e2 : py + dres * s = py + ((k + 1 : ℕ) : ℝ) * (s * (RAY_STEP_SIZE : ℝ)) := by
          rw [← h1]; ring
        refine ⟨?_, ?_, ?_⟩
        · rw [← h1]; positivity
        · rw [← h1]; exact step_succ_le k hd
        · rw [e1, e2]; exact hb
    · exfalso
      simp only [cast_ray_loop, if_neg hd, Prod.mk.injEq] at h
      exact absurd h.2 (by simp)

/-- C4 (amended).  When `cast_ray` stops because the ray left the grid
bounds (before hitting a wall and before the depth limit), it returns the
current traveled distance `d`: `0 ≤ d ≤ MAX_DEPTH`, and the ray point at
distance `d` along the cast direction has a truncated cell index outside the
grid.  Because the index truncation only detects the exit at the first
sampled point past the edge, `d` may exceed the geometric distance from the
viewer to the grid boundary (see `cast_ray_boundary_counterexample`) and in
the extreme case may equal `MAX_DEPTH`. -/
theorem cast_ray_out_of_bounds_spec (size : ℤ) (maze : ℤ → ℤ → ℕ)
    (px py angle : ℝ)
    (h : (cast_ray size maze px py angle).2 = RayExit.outOfBounds) :
    0 ≤ (cast_ray size maze px py angle).1 ∧
    (cast_ray size maze px py angle).1 ≤ (MAX_DEPTH : ℝ) ∧
    ¬ (0 ≤ pyInt (px + (cast_ray size maze px py angle).1 * Real.cos angle) ∧
       pyInt (px + (cast_ray size maze px py angle).1 * Real.cos angle) < size ∧
       0 ≤ pyInt (py + (cast_ray size maze px py angle).1 * Real.sin angle) ∧
       pyInt (py + (cast_ray size maze px py angle).1 * Real.sin angle) < size) := by
  have hpair : cast_ray size maze px py angle
      = ((cast_ray size maze px py angle).1, RayExit.outOfBounds) := by
    rw [← h]
  have h0 : cast_ray_loop size maze px py
      (Real.cos angle * (RAY_STEP_SIZE : ℝ)) (Real.sin angle * (RAY_STEP_SIZE : ℝ))
      (MAX_DEPTH * 50 + 1)
      (px + ((0 : ℕ) : ℝ) * (Real.cos angle * (RAY_STEP_SIZE : ℝ)))
      (py + ((0 : ℕ) : ℝ) * (Real.sin angle * (RAY_STEP_SIZE : ℝ)))
      (((0 : ℕ) : ℝ) * (RAY_STEP_SIZE : ℝ))
      = ((cast_ray size maze px py angle).1, RayExit.outOfBounds) := by
    simpa [cast_ray] using hpair
  exact cast_ray_loop_oob size maze px py (Real.cos angle) (Real.sin angle)
    (Real.cos_sq_add_sin_sq angle) (MAX_DEPTH * 50 + 1) 0 (by norm_num)
    (cast_ray size maze px py angle).1 h0

/-- Simulation: the real ray-march loop agrees with its executable rational
mirror whenever the per-step displacement has rational components whose
squares sum to the square of the step length (`rc^2 + rs^2 = nrm^2`). -/
lemma cast_ray_loop_eq_ratModel (size : ℤ) (maze : ℤ → ℤ → ℕ)
    (px py rc rs nrm : ℚ) (hn : 0 ≤ nrm) (hsq : rc ^ 2 + rs ^ 2 = nrm ^ 2) :
    ∀ (fuel : ℕ) (rx ry d : ℚ) (k : ℕ),
      d = k * nrm → rx = px + k * rc → ry = py + k * rs →
      cast_ray_loop size maze (px : ℝ) (py : ℝ) (rc : ℝ) (rs : ℝ) fuel
          (rx : ℝ) (ry : ℝ) (d : ℝ)
        = (((cast_ray_loopQ size maze nrm rc rs fuel rx ry d).1 : ℝ),
           (cast_ray_loopQ size maze nrm rc rs fuel rx ry d).2) := by
  have hnR : (0 : ℝ) ≤ (nrm : ℝ) := by exact_mod_cast hn
  intro fuel
  induction fuel with
  | zero =>
    intro rx ry d k hd hrx hry
    simp [cast_ray_loop, cast_ray_loopQ]
  | succ n ih =>
    intro rx ry d k hd hrx hry
    simp only [cast_ray_loop, cast_ray_loopQ]
    by_cases hlt : d < (MAX_DEPTH : ℚ)
    · have hltR : (d : ℝ) < ((MAX_DEPTH : ℕ) : ℝ) := by exact_mod_cast hlt
      rw [if_pos hltR, if_pos hlt]
      have e1 : ((rx : ℝ) + (rc : ℝ)) = ((rx + rc : ℚ) : ℝ) := by push_cast; ring
      have e2 : ((ry : ℝ) + (rs : ℝ)) = ((ry + rs : ℚ) : ℝ) := by push_cast; ring
      have edist : Real.sqrt (((rx : ℝ) + (rc : ℝ) - (px : ℝ)) ^ 2 +
              ((ry : ℝ) + (rs : ℝ) - (py : ℝ)) ^ 2)
          = ((d + nrm : ℚ) : ℝ) := by
        have hx : ((rx : ℝ) + (rc : ℝ) - (px : ℝ)) = ((k + 1 : ℕ) : ℝ) * (rc : ℝ) := by
          rw [hrx]; push_cast; ring
        have hy : ((ry : ℝ) + (rs : ℝ) - (py : ℝ)) = ((k + 1 : ℕ) : ℝ) * (rs : ℝ) := by
          rw [hry]; push_cast; ring
        have hsqR : ((rc : ℝ)) ^ 2 + ((rs : ℝ)) ^ 2 = ((nrm : ℝ)) ^ 2 := by
          exact_mod_cast hsq
        have hsum : (((k + 1 : ℕ) : ℝ) * (rc : ℝ)) ^ 2 + (((k + 1 : ℕ) : ℝ) * (rs : ℝ)) ^ 2
            = (((k + 1 : ℕ) : ℝ) * (nrm : ℝ)) ^ 2 := by
          calc (((k + 1 : ℕ) : ℝ) * (rc : ℝ)) ^ 2 + (((k + 1 : ℕ) : ℝ) * (rs : ℝ)) ^ 2
              = ((k + 1 : ℕ) : ℝ) ^ 2 * (((rc : ℝ)) ^ 2 + ((rs : ℝ)) ^ 2) := by ring
            _ = ((k + 1 : ℕ) : ℝ) ^ 2 * ((nrm : ℝ)) ^ 2 := by rw [hsqR]
            _ = (((k + 1 : ℕ) : ℝ) * (nrm : ℝ)) ^ 2 := by ring
        rw [hx, hy, hsum, Real.sqrt_sq (by positivity)]
        rw [hd]; push_cast; ring
      rw [edist, e1, e2, pyInt_ratCast, pyInt_ratCast]
      split_ifs with hb hw
      · rfl
      · exact ih (rx + rc) (ry + rs) (d + nrm) (k + 1)
          (by rw [hd]; push_cast; ring) (by rw [hrx]; push_cast; ring)
          (by rw [hry]; push_cast; ring)
      · rfl
    · have hltR : ¬ ((d : ℝ) < ((MAX_DEPTH : ℕ) : ℝ)) := by
        intro hh
        exact hlt (by exact_mod_cast hh)
      rw [if_neg hltR, if_neg hlt]

/-- Concrete out-of-bounds run: on the all-open 1-cell grid, casting from
`(0.97, 0.5)` at angle 0 marches to `x = 0.99` (cell 0, in bounds) and then
to `x = 1.01` (truncated index 1, out of the grid), returning distance
`2 * RAY_STEP_SIZE = 0.04`. -/
lemma cast_ray_eval_oob :
    cast_ray 1 (fun _ _ => 0) (97/100) (1/2) 0 = ((1/25 : ℝ), RayExit.outOfBounds) := by
  have f1 : ⌊(99/100 : ℚ)⌋ = 0 := by norm_num [Int.floor_eq_iff]
  have f2 : ⌊(1/2 : ℚ)⌋ = 0 := by norm_num [Int.floor_eq_iff]
  have f3 : ⌊(101/100 : ℚ)⌋ = 1 := by norm_num [Int.floor_eq_iff]
  have hQ : cast_ray_loopQ 1 (fun _ _ => 0) (1/50) (1/50) 0 1001 (97/100) (1/2) 0
      = (1/25, RayExit.outOfBounds) := by
    have s1 : cast_ray_loopQ 1 (fun _ _ => 0) (1/50) (1/50) 0 1001 (97/100) (1/2) 0
        = cast_ray_loopQ 1 (fun _ _ => 0) (1/50) (1/50) 0 1000 (99/100) (1/2) (1/50) := by
      conv_lhs => rw [show (1001:ℕ) = 1000+1 from rfl, cast_ray_loopQ]
      norm_num [pyIntQ, f1, f2, MAX_DEPTH]
    have s2 : cast_ray_loopQ 1 (fun _ _ => 0) (1/50) (1/50) 0 1000 (99/100) (1/2) (1/50)
        = (1/25, RayExit.outOfBounds) := by
      conv_lhs => rw [show (1000:ℕ) = 999+1 from rfl, cast_ray_loopQ]
      norm_num [pyIntQ, f3, f2, MAX_DEPTH]
    rw [s1, s2]
  have hbridge := cast_ray_loop_eq_ratModel 1 (fun _ _ => 0) (97/100) (1/2)
    (1/50) 0 (1/50) (by norm_num) (by norm_num) 1001 (97/100) (1/2) 0 0
    (by norm_num) (by norm_num) (by norm_num)
  have e1 : (97/100 : ℝ) = ((97/100 : ℚ) : ℝ) := by norm_num
  have e2 : (1/2 : ℝ) = ((1/2 : ℚ) : ℝ) := by norm_num
  simp only [cast_ray]
  rw [Real.cos_zero, Real.sin_zero, one_mul, zero_mul]
  rw [show ((RAY_STEP_SIZE : ℚ) : ℝ) = ((1/50 : ℚ) : ℝ) from by norm_num [RAY_STEP_SIZE]]
  rw [e1, e2]
  rw [show (0:ℝ) = ((0:ℚ):ℝ) from by norm_num]
  rw [show ((MAX_DEPTH * 50 + 1 : ℕ)) = 1001 from by norm_num [MAX_DEPTH]]
  rw [hbridge, hQ]
  norm_num

/-- C4 counterexample.  On the all-open 1-cell grid, the ray cast from
`(0.97, 0.5)` at angle 0 exits the grid without hitting a wall and without
reaching `MAX_DEPTH`, yet `cast_ray` returns `0.04`, which is strictly
greater than the distance `0.03` from the viewer to the grid boundary
`x = 1` along that ray (the point at parameter `0.03` already lies on the
boundary).  This refutes the claim that the returned value is at most the
distance to the boundary. -/
theorem cast_ray_boundary_counterexample :
    (cast_ray 1 (fun _ _ => 0) (97/100) (1/2) 0).2 = RayExit.outOfBounds ∧
    (cast_ray 1 (fun _ _ => 0) (97/100) (1/2) 0).1 = 1/25 ∧
    (97/100 : ℝ) + (3/100) * Real.cos 0 = 1 ∧
    (3/100 : ℝ) < 1/25 := by
  refine ⟨by rw [cast_ray_eval_oob], by rw [cast_ray_eval_oob], ?_, by norm_num⟩
  rw [Real.cos_zero]
  norm_num

/-- Witness for `cast_ray_out_of_bounds_spec` at the concrete
out-of-bounds run of `cast_ray_eval_oob`. -/
theorem cast_ray_out_of_bounds_spec_witness :
    (cast_ray 1 (fun _ _ => 0) (97/100) (1/2) 0).2 = RayExit.outOfBounds ∧
    (0 ≤ (cast_ray 1 (fun _ _ => 0) (97/100) (1/2) 0).1 ∧
     (cast_ray 1 (fun _ _ => 0) (97/100) (1/2) 0).1 ≤ (MAX_DEPTH : ℝ) ∧
     ¬ (0 ≤ pyInt (97/100 + (cast_ray 1 (fun _ _ => 0) (97/100) (1/2) 0).1 * Real.cos 0) ∧
        pyInt (97/100 + (cast_ray 1 (fun _ _ => 0) (97/100) (1/2) 0).1 * Real.cos 0) < 1 ∧
        0 ≤ pyInt (1/2 + (cast_ray 1 (fun _ _ => 0) (97/100) (1/2) 0).1 * Real.sin 0) ∧
        pyInt (1/2 + (cast_ray 1 (fun _ _ => 0) (97/100) (1/2) 0).1 * Real.sin 0) < 1)) :=
  ⟨by rw [cast_ray_eval_oob],
   cast_ray_out_of_bounds_spec 1 (fun _ _ => 0) (97/100) (1/2) 0
     (by rw [cast_ray_eval_oob])⟩

/-! ### Movement and collision (game.py lines 308-378)

`handle_movement` accumulates a movement vector from the held keys
(forward/back along the heading, strafe perpendicular, each scaled by the
profile speed), applies rotation directly to the heading, and then resolves
the translation against the grid: accept both axes if the combined
destination cell is open and in bounds, otherwise test each axis separately
against the other current coordinate. -/

/-- The pressed-key set polled by `handle_movement`
(`pygame.key.get_pressed()`); `up/down/leftArrow/rightArrow` are the arrow
keys. -/
structure PKeys where
  w : Bool
  s : Bool
  q : Bool
  e : Bool
  a : Bool
  d : Bool
  up : Bool
  down : Bool
  leftArrow : Bool
  rightArrow : Bool

/-- The all-released key set. -/
def noKeys : PKeys :=
  ⟨false, false, false, false, false, false, false, false, false, false⟩

/-- The bounds-and-openness test used by the translation resolution
(game.py lines 351-370): cell index `(ix, iy)` is inside the grid and the
cell is open (`maze[iy][ix] == 0`). -/
def canMoveIdx (size : ℤ) (maze : ℤ → ℤ → ℕ) (ix iy : ℤ) : Prop :=
  0 ≤ ix ∧ ix < size ∧ 0 ≤ iy ∧ iy < size ∧ maze ix iy = 0

instance (size : ℤ) (maze : ℤ → ℤ → ℕ) (ix iy : ℤ) :
    Decidable (canMoveIdx size maze ix iy) := by
  unfold canMoveIdx
  infer_instance

open Classical in
/-- The translation-resolution part of `handle_movement` (game.py lines
347-376): given the accumulated movement vector `(dx, dy)`, return the new
position.  The leading test models `if move_x != 0 or move_y != 0`. -/
noncomputable def try_move (size : ℤ) (maze : ℤ → ℤ → ℕ)
    (x y dx dy : ℝ) : ℝ × ℝ :=
  if dx = 0 ∧ dy = 0 then (x, y)
  else
    let newX := x + dx
    let newY := y + dy
    if canMoveIdx size maze (pyInt newX) (pyInt newY) then (newX, newY)
    else
      ((if canMoveIdx size maze (pyInt newX) (pyInt y) then newX else x),
       (if canMoveIdx size maze (pyInt x) (pyInt newY) then newY else y))

/-- The movement-vector accumulation of `handle_movement` (game.py lines
315-339): forward/back along the heading for W/UP and S/DOWN, strafe at
`angle ∓ pi/2` for Q and E, each scaled by the profile's `move_speed`. -/
noncomputable def movement_vector (keys : PKeys) (angle speed : ℝ) : ℝ × ℝ :=
  ((if keys.w || keys.up then Real.cos angle * speed else 0)
     - (if keys.s || keys.down then Real.cos angle * speed else 0)
     + (if keys.q then Real.cos (angle - Real.pi / 2) * speed else 0)
     + (if keys.e then Real.cos (angle + Real.pi / 2) * speed else 0),
   (if keys.w || keys.up then Real.sin angle * speed else 0)
     - (if keys.s || keys.down then Real.sin angle * speed else 0)
     + (if keys.q then Real.sin (angle - Real.pi / 2) * speed else 0)
     + (if keys.e then Real.sin (angle + Real.pi / 2) * speed else 0))

/-- The rotation part of `handle_movement` (game.py lines 341-345):
`A/LEFT` subtracts `ROTATION_SPEED` from the heading, `D/RIGHT` adds it.
No normalization is applied. -/
noncomputable def update_angle (angle : ℝ) (leftHeld rightHeld : Bool) : ℝ :=
  let a1 := if leftHeld then angle - (ROTATION_SPEED : ℝ) else angle
  if rightHeld then a1 + (ROTATION_SPEED : ℝ) else a1

/-- `handle_movement` (game.py lines 308-378): returns the new
`(player_x, player_y, player_angle)`.  The movement vector is computed from
the heading before rotation is applied, exactly as in the source. -/
noncomputable def handle_movement (size : ℤ) (maze : ℤ → ℤ → ℕ)
    (speed : ℝ) (keys : PKeys) (x y angle : ℝ) : ℝ × ℝ × ℝ :=
  let mv := movement_vector keys angle speed
  let angle' := update_angle angle (keys.a || keys.leftArrow) (keys.d || keys.rightArrow)
  let pos := try_move size maze x y mv.1 mv.2
  (pos.1, pos.2, angle')

/-- C5.  Translation resolution: with a nonzero movement vector, if the
combined destination cell is open and in bounds both coordinates update;
otherwise each axis advances alone exactly when its own destination cell
(tested against the other current coordinate) is open and in bounds — a
blocked axis keeps its coordinate, and a coordinate is only ever changed
when its target cell index is inside the grid bounds. -/
theorem try_move_spec (size : ℤ) (maze : ℤ → ℤ → ℕ) (x y dx dy : ℝ)
    (h : ¬ (dx = 0 ∧ dy = 0)) :
    (canMoveIdx size maze (pyInt (x + dx)) (pyInt (y + dy)) →
      try_move size maze x y dx dy = (x + dx, y + dy)) ∧
    (¬ canMoveIdx size maze (pyInt (x + dx)) (pyInt (y + dy)) →
      try_move size maze x y dx dy
        = ((if canMoveIdx size maze (pyInt (x + dx)) (pyInt y) then x + dx else x),
           (if canMoveIdx size maze (pyInt x) (pyInt (y + dy)) then y + dy else y))) ∧
    ((try_move size maze x y dx dy).1 ≠ x →
      0 ≤ pyInt (x + dx) ∧ pyInt (x + dx) < size) ∧
    ((try_move size maze x y dx dy).2 ≠ y →
      0 ≤ pyInt (y + dy) ∧ pyInt (y + dy) < size) := by
  unfold try_move
  rw [if_neg h]
  refine ⟨fun hb => by rw [if_pos hb], fun hb => by rw [if_neg hb], ?_, ?_⟩
  · intro hx
    dsimp only at hx
    split_ifs at hx with h1 h2 h3 h4 <;>
      first
      | exact ⟨h1.1, h1.2.1⟩
      | exact ⟨h2.1, h2.2.1⟩
      | simp at hx
  · intro hy
    dsimp only at hy
    split_ifs at hy with h1 h2 h3 h4 <;>
      first
      | exact ⟨h1.2.2.1, h1.2.2.2.1⟩
      | exact ⟨h3.2.2.1, h3.2.2.2.1⟩
      | exact ⟨h4.2.2.1, h4.2.2.2.1⟩
      | simp at hy

/-- Witness for `try_move_spec`: on an all-open 4-cell grid, the move
`(0, -1)` from `(1, 1)` is accepted on both axes. -/
theorem try_move_spec_witness :
    ¬ ((0:ℝ) = 0 ∧ (-1:ℝ) = 0) ∧
    ((canMoveIdx 4 (fun _ _ => 0) (pyInt ((1:ℝ) + 0)) (pyInt ((1:ℝ) + -1)) →
        try_move 4 (fun _ _ => 0) 1 1 0 (-1) = (1 + 0, 1 + -1)) ∧
     (¬ canMoveIdx 4 (fun _ _ => 0) (pyInt ((1:ℝ) + 0)) (pyInt ((1:ℝ) + -1)) →
        try_move 4 (fun _ _ => 0) 1 1 0 (-1)
          = ((if canMoveIdx 4 (fun _ _ => 0) (pyInt ((1:ℝ) + 0)) (pyInt (1:ℝ)) then 1 + 0 else 1),
             (if canMoveIdx 4 (fun _ _ => 0) (pyInt (1:ℝ)) (pyInt ((1:ℝ) + -1)) then 1 + -1 else 1))) ∧
     ((try_move 4 (fun _ _ => 0) 1 1 0 (-1)).1 ≠ 1 →
        0 ≤ pyInt ((1:ℝ) + 0) ∧ pyInt ((1:ℝ) + 0) < 4) ∧
     ((try_move 4 (fun _ _ => 0) 1 1 0 (-1)).2 ≠ 1 →
        0 ≤ pyInt ((1:ℝ) + -1) ∧ pyInt ((1:ℝ) + -1) < 4)) :=
  ⟨by norm_num, try_move_spec 4 (fun _ _ => 0) 1 1 0 (-1) (by norm_num)⟩

/-! ### The game loop (game.py lines 380-499)

Per tick: drain events (QUIT or the ESCAPE key clear `running`); if the
game is not yet completed, apply `handle_movement` and test the win
condition `int(player_x) == exit_x and int(player_y) == exit_y`; on success
record `completion_time = now - start_time`, mark the game completed and
show the win screen, whose modal wait always ends with `running = False`.
An exception in the tick body (`LoopFault`) is caught and clears `running`.
`run_game` returns `completion_time` if the game was completed and the
sentinel `-1` otherwise. -/

/-- One tick's worth of polled input: pending QUIT event, pending ESCAPE
key-down, the pressed-key set, the wall-clock time at the win test, and
whether the tick body raises an exception. -/
structure TickInput where
  quit : Bool
  escape : Bool
  keys : PKeys
  now : ℝ
  fault : Bool

/-- The loop-local session state of `run_game`. -/
structure GState where
  x : ℝ
  y : ℝ
  angle : ℝ
  completed : Bool
  completionTime : ℝ
  running : Bool

/-- The per-session configuration of `run_game`: grid size, exit cell
(`map_size - 2` twice), the generated grid, the difficulty's move speed and
the session start time. -/
structure GCfg where
  size : ℤ
  exitX : ℤ
  exitY : ℤ
  maze : ℤ → ℤ → ℕ
  speed : ℝ
  startTime : ℝ

/-- One iteration of the main `while running` loop (game.py lines 385-490).
A fault models the `except` branch (log and clear `running`).  On the
completing tick the win screen's modal wait (game.py lines 453-462) always
ends with `running = False`, which is collapsed into the tick. -/
noncomputable def game_tick (cfg : GCfg) (inp : TickInput) (st : GState) : GState :=
  if inp.fault then { st with running := false }
  else
    let running' := st.running && !(inp.quit || inp.escape)
    if st.completed then { st with running := running' }
    else
      let hm := handle_movement cfg.size cfg.maze cfg.speed inp.keys st.x st.y st.angle
      if pyInt hm.1 = cfg.exitX ∧ pyInt hm.2.1 = cfg.exitY then
        { x := hm.1, y := hm.2.1, angle := hm.2.2, completed := true,
          completionTime := inp.now - cfg.startTime, running := false }
      else
        { x := hm.1, y := hm.2.1, angle := hm.2.2, completed := false,
          completionTime := st.completionTime, running := running' }

/-- The `while running` loop over a finite trace of per-tick inputs. -/
noncomputable def run_loop (cfg : GCfg) : List TickInput → GState → GState
  | [], st => st
  | inp :: rest, st =>
    if st.running then run_loop cfg rest (game_tick cfg inp st) else st

/-- The initial session state of `run_game` (game.py lines 138-143, 381-383):
`player_x = player_y = 1.5`, `player_angle = 0`, `completion_time = 0`,
not completed, running. -/
noncomputable def init_state : GState :=
  { x := 3/2, y := 3/2, angle := 0, completed := false,
    completionTime := 0, running := true }

/-- The value `run_game` reports (game.py line 495):
`completion_time if game_completed else -1`. -/
noncomputable def run_game (cfg : GCfg) (inputs : List TickInput) : ℝ :=
  if (run_loop cfg inputs init_state).completed then
    (run_loop cfg inputs init_state).completionTime
  else -1

/-- C6.  On a tick that starts uncompleted (and does not fault), the session
transitions to Completed exactly when the tick's post-movement pose has
truncated integer coordinates equal to the exit cell — on that same tick,
never later — and the completion time is then recorded as the wall-clock
time elapsed since the session start. -/
theorem game_tick_win_same_tick (cfg : GCfg) (inp : TickInput) (st : GState)
    (hf : inp.fault = false) (hc : st.completed = false) :
    ((game_tick cfg inp st).completed = true ↔
      (pyInt (game_tick cfg inp st).x = cfg.exitX ∧
       pyInt (game_tick cfg inp st).y = cfg.exitY)) ∧
    ((game_tick cfg inp st).completed = true →
      (game_tick cfg inp st).completionTime = inp.now - cfg.startTime) := by
  unfold game_tick
  rw [if_neg (by simp [hf]), if_neg (by simp [hc])]
  dsimp only
  split_ifs with hwin
  · simpa using hwin
  · simpa using hwin

/-- Witness for `game_tick_win_same_tick`: a tick with no keys held from a
pose already in the exit cell completes and records `now - startTime`. -/
theorem game_tick_win_same_tick_witness :
    (TickInput.mk false false noKeys 5 false).fault = false ∧
    (GState.mk 1 1 0 false 0 true).completed = false ∧
    (((game_tick (GCfg.mk 4 1 1 (fun _ _ => 0) 1 0)
          (TickInput.mk false false noKeys 5 false)
          (GState.mk 1 1 0 false 0 true)).completed = true ↔
       (pyInt (game_tick (GCfg.mk 4 1 1 (fun _ _ => 0) 1 0)
          (TickInput.mk false false noKeys 5 false)
          (GState.mk 1 1 0 false 0 true)).x = (GCfg.mk 4 1 1 (fun _ _ => 0) 1 0).exitX ∧
        pyInt (game_tick (GCfg.mk 4 1 1 (fun _ _ => 0) 1 0)
          (TickInput.mk false false noKeys 5 false)
          (GState.mk 1 1 0 false 0 true)).y = (GCfg.mk 4 1 1 (fun _ _ => 0) 1 0).exitY)) ∧
     ((game_tick (GCfg.mk 4 1 1 (fun _ _ => 0) 1 0)
          (TickInput.mk false false noKeys 5 false)
          (GState.mk 1 1 0 false 0 true)).completed = true →
       (game_tick (GCfg.mk 4 1 1 (fun _ _ => 0) 1 0)
          (TickInput.mk false false noKeys 5 false)
          (GState.mk 1 1 0 false 0 true)).completionTime
         = (TickInput.mk false false noKeys 5 false).now
             - (GCfg.mk 4 1 1 (fun _ _ => 0) 1 0).startTime)) :=
  ⟨rfl, rfl, game_tick_win_same_tick _ _ _ rfl rfl⟩

/-- The heading stored after a (non-faulting, uncompleted) tick is exactly
`update_angle` of the previous heading. -/
lemma game_tick_angle_eq (cfg : GCfg) (inp : TickInput) (st : GState)
    (hf : inp.fault = false) (hc : st.completed = false) :
    (game_tick cfg inp st).angle
      = update_angle st.angle (inp.keys.a || inp.keys.leftArrow)
          (inp.keys.d || inp.keys.rightArrow) := by
  unfold game_tick handle_movement
  rw [if_neg (by simp [hf]), if_neg (by simp [hc])]
  dsimp only
  split_ifs with hwin <;> rfl

/-- C8 (amended).  The stored heading is not normalized into `[0, 2*pi)`:
after a tick's input handling it equals the previous heading minus
`ROTATION_SPEED` if a left-rotation key is held and plus `ROTATION_SPEED`
if a right-rotation key is held, with no wrapping, so it can leave
`[0, 2*pi)` (see `game_tick_angle_counterexample`). -/
theorem game_tick_angle_unnormalized (cfg : GCfg) (inp : TickInput) (st : GState)
    (hf : inp.fault = false) (hc : st.completed = false) :
    (game_tick cfg inp st).angle
      = update_angle st.angle (inp.keys.a || inp.keys.leftArrow)
          (inp.keys.d || inp.keys.rightArrow) ∧
    ∀ (a : ℝ) (l r : Bool), update_angle a l r
      = a - (if l then (ROTATION_SPEED : ℝ) else 0)
          + (if r then (ROTATION_SPEED : ℝ) else 0) := by
  refine ⟨game_tick_angle_eq cfg inp st hf hc, ?_⟩
  intro a l r
  unfold update_angle
  cases l <;> cases r <;> simp

/-- Witness for `game_tick_angle_unnormalized` at a concrete tick. -/
theorem game_tick_angle_unnormalized_witness :
    (TickInput.mk false false noKeys 0 false).fault = false ∧
    (GState.mk 1 1 0 false 0 true).completed = false ∧
    ((game_tick (GCfg.mk 15 13 13 (fun _ _ => 0) 1 0)
        (TickInput.mk false false noKeys 0 false)
        (GState.mk 1 1 0 false 0 true)).angle
      = update_angle (GState.mk 1 1 0 false 0 true).angle
          ((TickInput.mk false false noKeys 0 false).keys.a
            || (TickInput.mk false false noKeys 0 false).keys.leftArrow)
          ((TickInput.mk false false noKeys 0 false).keys.d
            || (TickInput.mk false false noKeys 0 false).keys.rightArrow) ∧
     ∀ (a : ℝ) (l r : Bool), update_angle a l r
      = a - (if l then (ROTATION_SPEED : ℝ) else 0)
          + (if r then (ROTATION_SPEED : ℝ) else 0)) :=
  ⟨rfl, rfl, game_tick_angle_unnormalized _ _ _ rfl rfl⟩

/-- C8 counterexample.  One tick with the left-rotation key held, starting
from heading 0, stores the heading `-0.04`, which is not in `[0, 2*pi)`:
the claim that the stored heading is normalized into `[0, 2*pi)` after
every tick's input handling is false. -/
theorem game_tick_angle_counterexample :
    (game_tick (GCfg.mk 15 13 13 (fun _ _ => 0) 1 0)
        (TickInput.mk false false { noKeys with a := true } 0 false)
        (GState.mk 1 1 0 false 0 true)).angle = -(1/25) ∧
    ¬ (0 ≤ (game_tick (GCfg.mk 15 13 13 (fun _ _ => 0) 1 0)
        (TickInput.mk false false { noKeys with a := true } 0 false)
        (GState.mk 1 1 0 false 0 true)).angle) := by
  have h := game_tick_angle_eq (GCfg.mk 15 13 13 (fun _ _ => 0) 1 0)
    (TickInput.mk false false { noKeys with a := true } 0 false)
    (GState.mk 1 1 0 false 0 true) rfl rfl
  rw [h]
  unfold update_angle
  norm_num [noKeys, ROTATION_SPEED]

/-- The completing tick records `now - startTime` as the completion time. -/
lemma game_tick_completes_time (cfg : GCfg) (inp : TickInput) (st : GState)
    (hc : st.completed = false)
    (h : (game_tick cfg inp st).completed = true) :
    (game_tick cfg inp st).completionTime = inp.now - cfg.startTime := by
  unfold game_tick at h ⊢
  by_cases hfa : inp.fault = true
  · rw [if_pos hfa] at h
    simp [hc] at h
  · rw [if_neg hfa] at h ⊢
    rw [if_neg (by simp [hc])] at h ⊢
    dsimp only at h ⊢
    split_ifs at h ⊢ with hwin
    rfl

/-- Once the session is completed, the remaining loop iterations never
change the completed flag or the recorded completion time. -/
lemma run_loop_completed_frozen (cfg : GCfg) :
    ∀ (inputs : List TickInput) (st : GState), st.completed = true →
      (run_loop cfg inputs st).completed = true ∧
      (run_loop cfg inputs st).completionTime = st.completionTime := by
  intro inputs
  induction inputs with
  | nil =>
    intro st h
    simp [run_loop, h]
  | cons inp rest ih =>
    intro st h
    simp only [run_loop]
    split_ifs with hr
    · have h2 : (game_tick cfg inp st).completed = true ∧
          (game_tick cfg inp st).completionTime = st.completionTime := by
        unfold game_tick
        by_cases hfa : inp.fault = true
        · rw [if_pos hfa]
          exact ⟨h, rfl⟩
        · rw [if_neg hfa, if_pos (by simp [h])]
          exact ⟨h, rfl⟩
      exact ⟨(ih _ h2.1).1, (ih _ h2.1).2.trans h2.2⟩
    · exact ⟨h, rfl⟩

/-- If a run starting uncompleted ends completed, the recorded completion
time is `now - startTime` for the input of the tick that completed it. -/
lemma run_loop_completion_stamp (cfg : GCfg) :
    ∀ (inputs : List TickInput) (st : GState), st.completed = false →
      (run_loop cfg inputs st).completed = true →
      ∃ inp ∈ inputs,
        (run_loop cfg inputs st).completionTime = inp.now - cfg.startTime := by
  intro inputs
  induction inputs with
  | nil =>
    intro st h0 h1
    rw [run_loop, h0] at h1
    exact absurd h1 (by simp)
  | cons inp rest ih =>
    intro st h0 h1
    simp only [run_loop] at h1 ⊢
    split_ifs at h1 ⊢ with hr
    · by_cases hc : (game_tick cfg inp st).completed = true
      · have hfrozen := run_loop_completed_frozen cfg rest _ hc
        refine ⟨inp, by simp, ?_⟩
        rw [hfrozen.2, game_tick_completes_time cfg inp st h0 hc]
      · obtain ⟨i, hi, he⟩ := ih _ (by simpa using hc) h1
        exact ⟨i, by simp [hi], he⟩
    · rw [h0] at h1
      exact absurd h1 (by simp)

/-- C7.  `run_game` reports the recorded completion time (stamped
`now - startTime` on the completing tick) when the session ends completed,
and the sentinel `-1` whenever the session ends without completion — in
particular after a quit/escape or a fault that cleared `running` before the
exit was reached. -/
theorem run_game_outcome (cfg : GCfg) (inputs : List TickInput) :
    ((run_loop cfg inputs init_state).completed = true →
      run_game cfg inputs = (run_loop cfg inputs init_state).completionTime ∧
      ∃ inp ∈ inputs,
        (run_loop cfg inputs init_state).completionTime = inp.now - cfg.startTime) ∧
    ((run_loop cfg inputs init_state).completed = false →
      run_game cfg inputs = -1) := by
  constructor
  · intro h
    refine ⟨?_, run_loop_completion_stamp cfg inputs init_state rfl h⟩
    unfold run_game
    rw [if_pos h]
  · intro h
    unfold run_game
    rw [if_neg (by simp [h])]

/-- Witness for `run_game_outcome`: a session that receives a quit event on
its first tick, with the pose away from the exit, ends uncompleted and
`run_game` reports the sentinel `-1`. -/
theorem run_game_outcome_witness :
    (run_loop (GCfg.mk 15 13 13 (fun _ _ => 0) 1 0)
        [TickInput.mk true false noKeys 0 false] init_state).completed = false ∧
    run_game (GCfg.mk 15 13 13 (fun _ _ => 0) 1 0)
        [TickInput.mk true false noKeys 0 false] = -1 := by
  have hfloor : pyInt (3/2 : ℝ) = 1 := by
    rw [pyInt, if_pos (by norm_num)]
    norm_num [Int.floor_eq_iff]
  have heval : (run_loop (GCfg.mk 15 13 13 (fun _ _ => 0) 1 0)
      [TickInput.mk true false noKeys 0 false] init_state).completed = false := by
    simp only [run_loop, init_state]
    rw [if_pos trivial]
    unfold game_tick handle_movement movement_vector update_angle try_move
    simp only [noKeys]
    norm_num [hfloor]
  exact ⟨heval, (run_game_outcome (GCfg.mk 15 13 13 (fun _ _ => 0) 1 0)
    [TickInput.mk true false noKeys 0 false]).2 heval⟩

/-! ### Maze generation (game.py lines 61-112)

`generate_maze` starts from an all-wall grid with the center cell opened,
seeds the frontier with the center's in-bounds lattice neighbors (offset
`±2` in one axis), and repeatedly pops a uniformly random frontier entry
`(fx, fy, px, py)`: if the target is still a wall it carves the target and
the midpoint toward its carving parent and pushes the target's in-bounds
still-wall lattice neighbors.  Afterwards the entrance `(1,1)` and exit
`(size-2, size-2)` are force-carved.  On an internal fault the fallback is
a bordered empty room.

The grid is its lookup function (`m x y` is `maze[y][x]`, wall `= 1`,
open `= 0`); the random `frontiers.pop(random.randint(0, len-1))` draw is
modeled by an arbitrary choice sequence taken modulo the frontier length. -/

/-- Carve cell `(x, y)` open: `maze[y][x] = 0`. -/
def upd (m : ℤ → ℤ → ℕ) (x y : ℤ) : ℤ → ℤ → ℕ :=
  fun a b => if a = x ∧ b = y then 0 else m a b

/-- The neighbor offsets `[(0, 2), (2, 0), (0, -2), (-2, 0)]`
(game.py lines 75, 90). -/
def dirs : List (ℤ × ℤ) := [(0, 2), (2, 0), (0, -2), (-2, 0)]

/-- A frontier entry `(nx, ny, parent_x, parent_y)` (game.py line 78). -/
structure FCell where
  fx : ℤ
  fy : ℤ
  px : ℤ
  py : ℤ

/-- The all-wall grid with the center opened (game.py lines 65-69). -/
def initMaze (size : ℤ) : ℤ → ℤ → ℕ :=
  upd (fun _ _ => 1) (size / 2) (size / 2)

/-- The initial frontier: the in-bounds lattice neighbors of the center
(game.py lines 75-78). -/
def initFrontiers (size : ℤ) : List FCell :=
  dirs.filterMap (fun dxy =>
    let nx := size / 2 + dxy.1
    let ny := size / 2 + dxy.2
    if 0 ≤ nx ∧ nx < size ∧ 0 ≤ ny ∧ ny < size then
      some ⟨nx, ny, size / 2, size / 2⟩
    else none)

/-- The `while frontiers:` loop (game.py lines 80-94) with explicit fuel.
Each iteration pops the frontier entry at the drawn random index; if its
target is still a wall, it carves the target and the midpoint toward the
parent and pushes the target's in-bounds still-wall lattice neighbors. -/
def gen_loop (size : ℤ) (choices : ℕ → ℕ) :
    ℕ → (ℤ → ℤ → ℕ) → List FCell → (ℤ → ℤ → ℕ)
  | 0, m, _ => m
  | _ + 1, m, [] => m
  | fuel + 1, m, e0 :: rest =>
    let F := e0 :: rest
    let i := choices fuel % F.length
    let e := F.get ⟨i, Nat.mod_lt _ (Nat.succ_pos _)⟩
    let F' := F.eraseIdx i
    if m e.fx e.fy = 1 then
      let m' := upd (upd m e.fx e.fy) ((e.fx + e.px) / 2) ((e.fy + e.py) / 2)
      let news := dirs.filterMap (fun dxy =>
        let nx := e.fx + dxy.1
        let ny := e.fy + dxy.2
        if 0 ≤ nx ∧ nx < size ∧ 0 ≤ ny ∧ ny < size ∧ m' nx ny = 1 then
          some ⟨nx, ny, e.fx, e.fy⟩
        else none)
      gen_loop size choices fuel m' (F' ++ news)
    else
      gen_loop size choices fuel m F'

/-- The grid produced by the generation loop, before the forced
entrance/exit carve. -/
def gen_loop_result (size : ℤ) (choices : ℕ → ℕ) (fuel : ℕ) : ℤ → ℤ → ℕ :=
  gen_loop size choices fuel (initMaze size) (initFrontiers size)

/-- `generate_maze` on the successful path (game.py lines 61-101): the loop
result with the entrance `(1,1)` and exit `(size-2, size-2)` force-carved
(lines 97-98). -/
def generate_maze (size : ℤ) (choices : ℕ → ℕ) (fuel : ℕ) : ℤ → ℤ → ℕ :=
  upd (upd (gen_loop_result size choices fuel) 1 1) (size - 2) (size - 2)

/-- The fallback grid of the `except` branch (game.py lines 106-112):
border cells wall, interior open. -/
def simple_maze (size : ℤ) : ℤ → ℤ → ℕ :=
  fun x y => if y = 0 ∨ y = size - 1 ∨ x = 0 ∨ x = size - 1 then 1 else 0

/-- Cell `(x, y)` is inside the grid bounds. -/
def inBCell (size x y : ℤ) : Prop := 0 ≤ x ∧ x < size ∧ 0 ≤ y ∧ y < size

instance (size x y : ℤ) : Decidable (inBCell size x y) := by
  unfold inBCell
  infer_instance

/-- The parity class of the generation lattice: lattice cells share the
parity of the center coordinate `size / 2`. -/
def cpar (size : ℤ) : ℤ := size / 2 % 2

/-- A room cell of the generation lattice: both coordinates have the
center's parity (reachable from the center by `±2` steps). -/
def isRoom (size x y : ℤ) : Prop := x % 2 = cpar size ∧ y % 2 = cpar size

instance (size x y : ℤ) : Decidable (isRoom size x y) := by
  unfold isRoom
  infer_instance

/-- A passage cell: the midpoint between two lattice rooms, with exactly
one coordinate off the center's parity. -/
def isPassage (size x y : ℤ) : Prop :=
  (x % 2 = cpar size ∧ ¬ y % 2 = cpar size) ∨
  (¬ x % 2 = cpar size ∧ y % 2 = cpar size)

instance (size x y : ℤ) : Decidable (isPassage size x y) := by
  unfold isPassage
  infer_instance

/-- All cells of the `size × size` grid. -/
def cellsIn (size : ℤ) : Finset (ℤ × ℤ) :=
  Finset.Icc 0 (size - 1) ×ˢ Finset.Icc 0 (size - 1)

/-- The number of OPEN lattice room cells of the grid. -/
def roomCount (size : ℤ) (m : ℤ → ℤ → ℕ) : ℕ :=
  ((cellsIn size).filter (fun c => isRoom size c.1 c.2 ∧ m c.1 c.2 = 0)).card

/-- The number of OPEN passage (midpoint) cells of the grid: the carved
connecting passages. -/
def passageCount (size : ℤ) (m : ℤ → ℤ → ℕ) : ℕ :=
  ((cellsIn size).filter (fun c => isPassage size c.1 c.2 ∧ m c.1 c.2 = 0)).card

/-- One step between adjacent open rooms through an open connecting
passage: `b` is open, lies `±2` from `a` in one axis, and the midpoint cell
between them is open. -/
def roomStep (m : ℤ → ℤ → ℕ) (a b : ℤ × ℤ) : Prop :=
  m b.1 b.2 = 0 ∧ m ((a.1 + b.1) / 2) ((a.2 + b.2) / 2) = 0 ∧
    ((b.1 = a.1 ∧ (b.2 = a.2 + 2 ∨ b.2 = a.2 - 2)) ∨
     (b.2 = a.2 ∧ (b.1 = a.1 + 2 ∨ b.1 = a.1 - 2)))

/-- Room `c` is reachable from the center through open rooms joined by open
passages. -/
def ReachFromCenter (size : ℤ) (m : ℤ → ℤ → ℕ) (c : ℤ × ℤ) : Prop :=
  Relation.ReflTransGen (roomStep m) (size / 2, size / 2) c

/-- The grid part of the generation invariant:
every open cell is an in-bounds room or passage; every open passage joins
its two (open) lattice neighbors along its off-parity axis; the open rooms
exceed the open passages by exactly one; and every open room is reachable
from the center. -/
def MazeInv (size : ℤ) (m : ℤ → ℤ → ℕ) : Prop :=
  (∀ x y, m x y = 0 → inBCell size x y ∧ (isRoom size x y ∨ isPassage size x y)) ∧
  (∀ x y, m x y = 0 → ¬ x % 2 = cpar size → m (x - 1) y = 0 ∧ m (x + 1) y = 0) ∧
  (∀ x y, m x y = 0 → ¬ y % 2 = cpar size → m x (y - 1) = 0 ∧ m x (y + 1) = 0) ∧
  roomCount size m = passageCount size m + 1 ∧
  (∀ x y, isRoom size x y → m x y = 0 → ReachFromCenter size m (x, y))

/-- The frontier part of the generation invariant: every frontier entry is
an in-bounds lattice room whose parent is an open cell at offset `±2` in
one axis. -/
def FrontInv (size : ℤ) (m : ℤ → ℤ → ℕ) (F : List FCell) : Prop :=
  ∀ e ∈ F, inBCell size e.fx e.fy ∧ isRoom size e.fx e.fy ∧ m e.px e.py = 0 ∧
    ((e.fx = e.px ∧ (e.fy = e.py + 2 ∨ e.fy = e.py - 2)) ∨
     (e.fy = e.py ∧ (e.fx = e.px + 2 ∨ e.fx = e.px - 2)))

lemma upd_self (m : ℤ → ℤ → ℕ) (x y : ℤ) : upd m x y x y = 0 := by
  simp [upd]

lemma upd_of_ne (m : ℤ → ℤ → ℕ) (x y a b : ℤ) (h : ¬ (a = x ∧ b = y)) :
    upd m x y a b = m a b := by
  simp only [upd, if_neg h]

lemma upd_mono (m : ℤ → ℤ → ℕ) (x y a b : ℤ) (h : m a b = 0) :
    upd m x y a b = 0 := by
  unfold upd
  split_ifs <;> simp [h]

lemma upd_eq_zero_iff (m : ℤ → ℤ → ℕ) (x y a b : ℤ) :
    upd m x y a b = 0 ↔ ((a = x ∧ b = y) ∨ m a b = 0) := by
  unfold upd
  split_ifs with h <;> simp [h]

/-- Opening a cell that satisfies the static predicate and was a wall
increases the filtered count by one. -/
lemma count_upd_incr (size : ℤ) (P : ℤ × ℤ → Prop) [DecidablePred P]
    (m : ℤ → ℤ → ℕ) (x y : ℤ)
    (hmem : (x, y) ∈ cellsIn size) (hP : P (x, y)) (hw : ¬ m x y = 0) :
    ((cellsIn size).filter (fun c => P c ∧ upd m x y c.1 c.2 = 0)).card
      = ((cellsIn size).filter (fun c => P c ∧ m c.1 c.2 = 0)).card + 1 := by
  have hset : (cellsIn size).filter (fun c => P c ∧ upd m x y c.1 c.2 = 0)
      = insert (x, y) ((cellsIn size).filter (fun c => P c ∧ m c.1 c.2 = 0)) := by
    ext c
    simp only [Finset.mem_filter, Finset.mem_insert]
    constructor
    · rintro ⟨hcin, hPc, hopen⟩
      by_cases hxy : c = (x, y)
      · exact Or.inl hxy
      · refine Or.inr ⟨hcin, hPc, ?_⟩
        rw [upd_of_ne] at hopen
        · exact hopen
        · intro hab
          exact hxy (Prod.ext hab.1 hab.2)
    · rintro (rfl | ⟨hcin, hPc, hopen⟩)
      · exact ⟨hmem, hP, upd_self m x y⟩
      · exact ⟨hcin, hPc, upd_mono m x y c.1 c.2 hopen⟩
  rw [hset, Finset.card_insert_of_not_mem]
  simp only [Finset.mem_filter, not_and]
  intro _ _
  exact hw

/-- Opening a cell that fails the static predicate leaves the filtered
count unchanged. -/
lemma count_upd_skip (size : ℤ) (P : ℤ × ℤ → Prop) [DecidablePred P]
    (m : ℤ → ℤ → ℕ) (x y : ℤ) (hP : ¬ P (x, y)) :
    ((cellsIn size).filter (fun c => P c ∧ upd m x y c.1 c.2 = 0)).card
      = ((cellsIn size).filter (fun c => P c ∧ m c.1 c.2 = 0)).card := by
  congr 1
  apply Finset.filter_congr
  intro c _
  by_cases hPc : P c
  · have hne : ¬ (c.1 = x ∧ c.2 = y) := by
      intro hab
      have hc : c = (x, y) := Prod.ext hab.1 hab.2
      exact hP (hc ▸ hPc)
    rw [upd_of_ne m x y c.1 c.2 hne]
  · simp [hPc]

/-- Reachability is monotone in the open cells. -/
lemma reach_mono (size : ℤ) (m m' : ℤ → ℤ → ℕ)
    (hmm : ∀ a b, m a b = 0 → m' a b = 0) (c : ℤ × ℤ) :
    ReachFromCenter size m c → ReachFromCenter size m' c :=
  Relation.ReflTransGen.mono
    (fun _ _ hab => ⟨hmm _ _ hab.1, hmm _ _ hab.2.1, hab.2.2⟩)

lemma front_inv_eraseIdx (size : ℤ) (m : ℤ → ℤ → ℕ) (F : List FCell) (i : ℕ)
    (h : FrontInv size m F) : FrontInv size m (F.eraseIdx i) :=
  fun e he => h e ((List.eraseIdx_sublist F i).subset he)

lemma front_inv_mono (size : ℤ) (m m' : ℤ → ℤ → ℕ) (F : List FCell)
    (hmm : ∀ a b, m a b = 0 → m' a b = 0) (h : FrontInv size m F) :
    FrontInv size m' F := by
  intro e he
  obtain ⟨h1, h2, h3, h4⟩ := h e he
  exact ⟨h1, h2, hmm _ _ h3, h4⟩

lemma front_inv_append (size : ℤ) (m : ℤ → ℤ → ℕ) (F1 F2 : List FCell)
    (h1 : FrontInv size m F1) (h2 : FrontInv size m F2) :
    FrontInv size m (F1 ++ F2) := by
  intro e he
  rcases List.mem_append.mp he with h | h
  · exact h1 e h
  · exact h2 e h

/-- The freshly pushed frontier entries around an open room satisfy the
frontier invariant. -/
lemma front_inv_news (size : ℤ) (m' : ℤ → ℤ → ℕ) (fx fy : ℤ)
    (hroom : isRoom size fx fy) (hopen : m' fx fy = 0) :
    FrontInv size m' (dirs.filterMap (fun dxy =>
      if 0 ≤ fx + dxy.1 ∧ fx + dxy.1 < size ∧ 0 ≤ fy + dxy.2 ∧
          fy + dxy.2 < size ∧ m' (fx + dxy.1) (fy + dxy.2) = 1 then
        some ⟨fx + dxy.1, fy + dxy.2, fx, fy⟩
      else none)) := by
  intro e' he'
  rw [List.mem_filterMap] at he'
  obtain ⟨dxy, hd, heq⟩ := he'
  split_ifs at heq with hcond
  · injection heq with heq
    subst heq
    dsimp only
    unfold isRoom at hroom ⊢
    refine ⟨⟨hcond.1, hcond.2.1, hcond.2.2.1, hcond.2.2.2.1⟩, ?_, hopen, ?_⟩
    · simp only [dirs, List.mem_cons, List.not_mem_nil, or_false] at hd
      rcases hd with rfl | rfl | rfl | rfl <;> constructor <;> omega
    · simp only [dirs, List.mem_cons, List.not_mem_nil, or_false] at hd
      rcases hd with rfl | rfl | rfl | rfl
      · exact Or.inl ⟨by omega, Or.inl (by omega)⟩
      · exact Or.inr ⟨by omega, Or.inl (by omega)⟩
      · exact Or.inl ⟨by omega, Or.inr (by omega)⟩
      · exact Or.inr ⟨by omega, Or.inr (by omega)⟩

/-- Carving a still-wall frontier target and the midpoint toward its open
parent preserves the grid invariant: it adds exactly one open room and one
open passage, the passage joins the new room to its parent, and the new
room becomes reachable from the center through the parent. -/
lemma carve_preserves (size : ℤ) (m : ℤ → ℤ → ℕ) (fx fy px py : ℤ)
    (hInv : MazeInv size m)
    (hfin : inBCell size fx fy) (hfroom : isRoom size fx fy)
    (hpopen : m px py = 0)
    (hstep : (fx = px ∧ (fy = py + 2 ∨ fy = py - 2)) ∨
             (fy = py ∧ (fx = px + 2 ∨ fx = px - 2)))
    (hwall : m fx fy = 1) :
    MazeInv size (upd (upd m fx fy) ((fx + px) / 2) ((fy + py) / 2)) := by
  obtain ⟨hclass, hpassx, hpassy, hcount, hreach⟩ := hInv
  have hpin : inBCell size px py := (hclass _ _ hpopen).1
  have hproom : isRoom size px py := by
    unfold isRoom at hfroom ⊢
    unfold cpar at hfroom ⊢
    omega
  have hmxmy : 2 * ((fx + px) / 2) = fx + px ∧ 2 * ((fy + py) / 2) = fy + py := by
    unfold isRoom at hfroom hproom
    unfold cpar at hfroom hproom
    omega
  have hmin : inBCell size ((fx + px) / 2) ((fy + py) / 2) := by
    unfold inBCell at hfin hpin ⊢
    omega
  have hmpass : isPassage size ((fx + px) / 2) ((fy + py) / 2) := by
    unfold isRoom at hfroom hproom
    unfold isPassage
    unfold cpar at hfroom hproom ⊢
    omega
  have hmnef : ¬ ((fx + px) / 2 = fx ∧ (fy + py) / 2 = fy) := by
    unfold isRoom at hfroom hproom
    unfold cpar at hfroom hproom
    omega
  have hmwall : ¬ m ((fx + px) / 2) ((fy + py) / 2) = 0 := by
    intro hopen
    rcases hstep with ⟨hs1, hs2⟩ | ⟨hs1, hs2⟩
    · have hodd : ¬ ((fy + py) / 2) % 2 = cpar size := by
        unfold isRoom at hfroom hproom
        unfold cpar at hfroom hproom ⊢
        omega
      obtain ⟨hd1, hd2⟩ := hpassy _ _ hopen hodd
      rcases hs2 with hs2 | hs2
      · have e1 : (fx + px) / 2 = fx := by omega
        have e2 : (fy + py) / 2 + 1 = fy := by omega
        rw [e1, e2, hwall] at hd2
        simp at hd2
      · have e1 : (fx + px) / 2 = fx := by omega
        have e2 : (fy + py) / 2 - 1 = fy := by omega
        rw [e1, e2, hwall] at hd1
        simp at hd1
    · have hodd : ¬ ((fx + px) / 2) % 2 = cpar size := by
        unfold isRoom at hfroom hproom
        unfold cpar at hfroom hproom ⊢
        omega
      obtain ⟨hd1, hd2⟩ := hpassx _ _ hopen hodd
      rcases hs2 with hs2 | hs2
      · have e1 : (fx + px) / 2 + 1 = fx := by omega
        have e2 : (fy + py) / 2 = fy := by omega
        rw [e1, e2, hwall] at hd2
        simp at hd2
      · have e1 : (fx + px) / 2 - 1 = fx := by omega
        have e2 : (fy + py) / 2 = fy := by omega
        rw [e1, e2, hwall] at hd1
        simp at hd1
  have hiff : ∀ x y, upd (upd m fx fy) ((fx + px) / 2) ((fy + py) / 2) x y = 0 ↔
      ((x = (fx + px) / 2 ∧ y = (fy + py) / 2) ∨ (x = fx ∧ y = fy) ∨ m x y = 0) := by
    intro x y
    rw [upd_eq_zero_iff, upd_eq_zero_iff]
  have hops : ∀ x y, m x y = 0 →
      upd (upd m fx fy) ((fx + px) / 2) ((fy + py) / 2) x y = 0 :=
    fun x y h => upd_mono _ _ _ _ _ (upd_mono _ _ _ _ _ h)
  have hopf : upd (upd m fx fy) ((fx + px) / 2) ((fy + py) / 2) fx fy = 0 :=
    upd_mono _ _ _ _ _ (upd_self _ _ _)
  have hopm : upd (upd m fx fy) ((fx + px) / 2) ((fy + py) / 2)
      ((fx + px) / 2) ((fy + py) / 2) = 0 := upd_self _ _ _
  have hmemf : (fx, fy) ∈ cellsIn size := by
    unfold cellsIn
    unfold inBCell at hfin
    simp only [Finset.mem_product, Finset.mem_Icc]
    omega
  have hmemm : ((fx + px) / 2, (fy + py) / 2) ∈ cellsIn size := by
    unfold cellsIn
    unfold inBCell at hmin
    simp only [Finset.mem_product, Finset.mem_Icc]
    omega
  have hnr_mid : ¬ isRoom size ((fx + px) / 2) ((fy + py) / 2) := by
    unfold isPassage at hmpass
    unfold isRoom
    tauto
  have hnp_f : ¬ isPassage size fx fy := by
    unfold isRoom at hfroom
    unfold isPassage
    tauto
  have hm1_mid_wall : ¬ upd m fx fy ((fx + px) / 2) ((fy + py) / 2) = 0 := by
    rw [upd_of_ne _ _ _ _ _ hmnef]
    exact hmwall
  refine ⟨?_, ?_, ?_, ?_, ?_⟩
  · intro x y hopen
    rcases (hiff x y).mp hopen with ⟨rfl, rfl⟩ | ⟨rfl, rfl⟩ | h2
    · exact ⟨hmin, Or.inr hmpass⟩
    · exact ⟨hfin, Or.inl hfroom⟩
    · exact hclass x y h2
  · intro x y hopen hoff
    rcases (hiff x y).mp hopen with ⟨rfl, rfl⟩ | ⟨rfl, rfl⟩ | h2
    · rcases hstep with ⟨hs1, hs2⟩ | ⟨hs1, hs2⟩
      · exfalso
        apply hoff
        unfold isRoom at hfroom hproom
        unfold cpar at hfroom hproom ⊢
        omega
      · constructor
        · rcases hs2 with hs2 | hs2
          · convert hops px py hpopen using 2 <;> omega
          · convert hopf using 2 <;> omega
        · rcases hs2 with hs2 | hs2
          · convert hopf using 2 <;> omega
          · convert hops px py hpopen using 2 <;> omega
    · exact absurd hfroom.1 hoff
    · obtain ⟨hn1, hn2⟩ := hpassx x y h2 hoff
      exact ⟨hops _ _ hn1, hops _ _ hn2⟩
  · intro x y hopen hoff
    rcases (hiff x y).mp hopen with ⟨rfl, rfl⟩ | ⟨rfl, rfl⟩ | h2
    · rcases hstep with ⟨hs1, hs2⟩ | ⟨hs1, hs2⟩
      · constructor
        · rcases hs2 with hs2 | hs2
          · convert hops px py hpopen using 2 <;> omega
          · convert hopf using 2 <;> omega
        · rcases hs2 with hs2 | hs2
          · convert hopf using 2 <;> omega
          · convert hops px py hpopen using 2 <;> omega
      · exfalso
        apply hoff
        unfold isRoom at hfroom hproom
        unfold cpar at hfroom hproom ⊢
        omega
    · exact absurd hfroom.2 hoff
    · obtain ⟨hn1, hn2⟩ := hpassy x y h2 hoff
      exact ⟨hops _ _ hn1, hops _ _ hn2⟩
  · have hr : roomCount size (upd (upd m fx fy) ((fx + px) / 2) ((fy + py) / 2))
        = roomCount size m + 1 := by
      unfold roomCount
      rw [count_upd_skip size (fun c => isRoom size c.1 c.2) _ _ _ hnr_mid]
      exact count_upd_incr size (fun c => isRoom size c.1 c.2) m fx fy hmemf hfroom
        (by rw [hwall]; simp)
    have hp : passageCount size (upd (upd m fx fy) ((fx + px) / 2) ((fy + py) / 2))
        = passageCount size m + 1 := by
      unfold passageCount
      rw [count_upd_incr size (fun c => isPassage size c.1 c.2) (upd m fx fy)
        _ _ hmemm hmpass hm1_mid_wall]
      rw [count_upd_skip size (fun c => isPassage size c.1 c.2) m fx fy hnp_f]
    rw [hr, hp, hcount]
  · intro x y hroomxy hopen
    rcases (hiff x y).mp hopen with ⟨rfl, rfl⟩ | ⟨rfl, rfl⟩ | h2
    · exact absurd hroomxy hnr_mid
    · have hr1 := reach_mono size m _ hops _ (hreach px py hproom hpopen)
      refine Relation.ReflTransGen.tail hr1 ⟨hopf, ?_, ?_⟩
      · dsimp only
        convert hopm using 2 <;> omega
      · dsimp only
        exact hstep
    · exact reach_mono size m _ hops _ (hreach x y hroomxy h2)

/-- The generation loop preserves the grid invariant from any state
satisfying both invariants. -/
lemma gen_loop_inv (size : ℤ) (choices : ℕ → ℕ) :
    ∀ (fuel : ℕ) (m : ℤ → ℤ → ℕ) (F : List FCell),
      MazeInv size m → FrontInv size m F →
      MazeInv size (gen_loop size choices fuel m F) := by
  intro fuel
  induction fuel with
  | zero =>
    intro m F hm _
    simpa [gen_loop] using hm
  | succ n ih =>
    intro m F hm hF
    rcases F with _ | ⟨e0, rest⟩
    · simpa [gen_loop] using hm
    · simp only [gen_loop]
      split_ifs with hw
      · obtain ⟨hin, hroom, hpopen, hstepgeo⟩ :=
          hF _ (List.get_mem (e0 :: rest) (choices n % (e0 :: rest).length)
            (Nat.mod_lt _ (Nat.succ_pos _)))
        apply ih
        · exact carve_preserves size m _ _ _ _ hm hin hroom hpopen hstepgeo hw
        · apply front_inv_append
          · exact front_inv_mono size m _ _
              (fun a b h => upd_mono _ _ _ _ _ (upd_mono _ _ _ _ _ h))
              (front_inv_eraseIdx size m _ _ hF)
          · exact front_inv_news size _ _ _ hroom
              (upd_mono _ _ _ _ _ (upd_self _ _ _))
      · exact ih m _ hm (front_inv_eraseIdx size m _ _ hF)

/-- The initial grid (all wall, center open) satisfies the invariant. -/
lemma init_maze_inv (size : ℤ) (hsz : 1 ≤ size) : MazeInv size (initMaze size) := by
  have hc : inBCell size (size / 2) (size / 2) := by
    unfold inBCell
    omega
  have hopen_iff : ∀ x y, initMaze size x y = 0 ↔ (x = size / 2 ∧ y = size / 2) := by
    intro x y
    unfold initMaze
    rw [upd_eq_zero_iff]
    simp
  refine ⟨?_, ?_, ?_, ?_, ?_⟩
  · intro x y h
    obtain ⟨rfl, rfl⟩ := (hopen_iff x y).mp h
    exact ⟨hc, Or.inl ⟨rfl, rfl⟩⟩
  · intro x y h hoff
    obtain ⟨rfl, rfl⟩ := (hopen_iff x y).mp h
    exact absurd rfl hoff
  · intro x y h hoff
    obtain ⟨rfl, rfl⟩ := (hopen_iff x y).mp h
    exact absurd rfl hoff
  · have h1 : roomCount size (initMaze size) = 1 := by
      unfold roomCount
      have hset : (cellsIn size).filter
          (fun c => isRoom size c.1 c.2 ∧ initMaze size c.1 c.2 = 0)
          = {(size / 2, size / 2)} := by
        ext c
        simp only [Finset.mem_filter, Finset.mem_singleton]
        constructor
        · rintro ⟨hcin, hroomc, hopen⟩
          obtain ⟨h1, h2⟩ := (hopen_iff c.1 c.2).mp hopen
          exact Prod.ext h1 h2
        · rintro rfl
          refine ⟨?_, ⟨rfl, rfl⟩, (hopen_iff _ _).mpr ⟨rfl, rfl⟩⟩
          unfold cellsIn
          unfold inBCell at hc
          simp only [Finset.mem_product, Finset.mem_Icc]
          omega
      rw [hset, Finset.card_singleton]
    have h2 : passageCount size (initMaze size) = 0 := by
      unfold passageCount
      rw [Finset.card_eq_zero, Finset.filter_eq_empty_iff]
      intro c _
      rintro ⟨hpass, hopen⟩
      obtain ⟨h1, h2⟩ := (hopen_iff c.1 c.2).mp hopen
      rw [h1, h2] at hpass
      unfold isPassage cpar at hpass
      omega
    rw [h1, h2]
  · intro x y _ h
    obtain ⟨rfl, rfl⟩ := (hopen_iff x y).mp h
    exact Relation.ReflTransGen.refl

/-- The initial frontier satisfies the frontier invariant. -/
lemma init_frontiers_inv (size : ℤ) :
    FrontInv size (initMaze size) (initFrontiers size) := by
  intro e he
  unfold initFrontiers at he
  rw [List.mem_filterMap] at he
  obtain ⟨dxy, hd, heq⟩ := he
  dsimp only at heq
  split_ifs at heq with hcond
  · injection heq with heq
    subst heq
    dsimp only
    refine ⟨⟨hcond.1, hcond.2.1, hcond.2.2.1, hcond.2.2.2⟩, ?_, ?_, ?_⟩
    · unfold isRoom cpar
      simp only [dirs, List.mem_cons, List.not_mem_nil, or_false] at hd
      rcases hd with rfl | rfl | rfl | rfl <;> constructor <;> omega
    · unfold initMaze
      exact upd_self _ _ _
    · simp only [dirs, List.mem_cons, List.not_mem_nil, or_false] at hd
      rcases hd with rfl | rfl | rfl | rfl
      · exact Or.inl ⟨by omega, Or.inl (by omega)⟩
      · exact Or.inr ⟨by omega, Or.inl (by omega)⟩
      · exact Or.inl ⟨by omega, Or.inr (by omega)⟩
      · exact Or.inr ⟨by omega, Or.inr (by omega)⟩

/-- C1.  For every odd size at least 5 (and in fact every size at least 1),
every choice sequence and every fuel budget, the grid built by the
generation loop — the successful path of `generate_maze` before the forced
entrance/exit carve — is a tree on the component reachable from the center:
the number of OPEN lattice room cells equals the number of carved
connecting passage cells plus one; every open cell is an in-bounds room or
passage; every open passage joins its two neighboring rooms, which are
open; and every open room is reachable from the center through open rooms
joined by open passages.  A connected graph whose vertex count exceeds its
edge count by one is acyclic, so the open rooms and passages form a tree. -/
theorem generate_maze_tree (size : ℤ) (_hodd : Odd size) (h5 : 5 ≤ size)
    (choices : ℕ → ℕ) (fuel : ℕ) :
    roomCount size (gen_loop_result size choices fuel)
      = passageCount size (gen_loop_result size choices fuel) + 1 ∧
    (∀ x y, gen_loop_result size choices fuel x y = 0 →
      inBCell size x y ∧ (isRoom size x y ∨ isPassage size x y)) ∧
    (∀ x y, gen_loop_result size choices fuel x y = 0 →
      ¬ x % 2 = cpar size →
      gen_loop_result size choices fuel (x - 1) y = 0 ∧
      gen_loop_result size choices fuel (x + 1) y = 0) ∧
    (∀ x y, gen_loop_result size choices fuel x y = 0 →
      ¬ y % 2 = cpar size →
      gen_loop_result size choices fuel x (y - 1) = 0 ∧
      gen_loop_result size choices fuel x (y + 1) = 0) ∧
    (∀ x y, isRoom size x y → gen_loop_result size choices fuel x y = 0 →
      ReachFromCenter size (gen_loop_result size choices fuel) (x, y)) := by
  have h := gen_loop_inv size choices fuel (initMaze size) (initFrontiers size)
    (init_maze_inv size (by omega)) (init_frontiers_inv size)
  obtain ⟨h1, h2, h3, h4, h5'⟩ := h
  exact ⟨h4, h1, h2, h3, h5'⟩

/-- Witness for `generate_maze_tree` at size 5 with the constant choice
sequence and fuel 64. -/
theorem generate_maze_tree_witness :
    Odd (5 : ℤ) ∧ (5 : ℤ) ≤ 5 ∧
    (roomCount 5 (gen_loop_result 5 (fun _ => 0) 64)
      = passageCount 5 (gen_loop_result 5 (fun _ => 0) 64) + 1 ∧
    (∀ x y, gen_loop_result 5 (fun _ => 0) 64 x y = 0 →
      inBCell 5 x y ∧ (isRoom 5 x y ∨ isPassage 5 x y)) ∧
    (∀ x y, gen_loop_result 5 (fun _ => 0) 64 x y = 0 →
      ¬ x % 2 = cpar 5 →
      gen_loop_result 5 (fun _ => 0) 64 (x - 1) y = 0 ∧
      gen_loop_result 5 (fun _ => 0) 64 (x + 1) y = 0) ∧
    (∀ x y, gen_loop_result 5 (fun _ => 0) 64 x y = 0 →
      ¬ y % 2 = cpar 5 →
      gen_loop_result 5 (fun _ => 0) 64 x (y - 1) = 0 ∧
      gen_loop_result 5 (fun _ => 0) 64 x (y + 1) = 0) ∧
    (∀ x y, isRoom 5 x y → gen_loop_result 5 (fun _ => 0) 64 x y = 0 →
      ReachFromCenter 5 (gen_loop_result 5 (fun _ => 0) 64) (x, y))) :=
  ⟨⟨2, by norm_num⟩, by norm_num,
   generate_maze_tree 5 ⟨2, by norm_num⟩ (by norm_num) (fun _ => 0) 64⟩

/-- C2.  For every odd size at least 5, both the successful generation path
(with its forced entrance/exit carve) and the fallback bordered-room grid
have the entrance `(1,1)` and the exit `(size-2, size-2)` OPEN. -/
theorem generate_maze_entrance_exit (size : ℤ) (_hodd : Odd size) (h5 : 5 ≤ size)
    (choices : ℕ → ℕ) (fuel : ℕ) :
    generate_maze size choices fuel 1 1 = 0 ∧
    generate_maze size choices fuel (size - 2) (size - 2) = 0 ∧
    simple_maze size 1 1 = 0 ∧
    simple_maze size (size - 2) (size - 2) = 0 := by
  refine ⟨?_, ?_, ?_, ?_⟩
  · unfold generate_maze
    exact upd_mono _ _ _ _ _ (upd_self _ _ _)
  · unfold generate_maze
    exact upd_self _ _ _
  · unfold simple_maze
    rw [if_neg (by omega)]
  · unfold simple_maze
    rw [if_neg (by omega)]

/-- Witness for `generate_maze_entrance_exit` at size 15. -/
theorem generate_maze_entrance_exit_witness :
    Odd (15 : ℤ) ∧ (5 : ℤ) ≤ 15 ∧
    (generate_maze 15 (fun _ => 0) 0 1 1 = 0 ∧
     generate_maze 15 (fun _ => 0) 0 13 13 = 0 ∧
     simple_maze 15 1 1 = 0 ∧
     simple_maze 15 13 13 = 0) :=
  ⟨⟨7, by norm_num⟩, by norm_num, by
    have h := generate_maze_entrance_exit 15 ⟨7, by norm_num⟩ (by norm_num)
      (fun _ => 0) 0
    simpa using h⟩
